import Mathlib

set_option maxHeartbeats 1000000

/-! Verification of the digit-pattern compiler and differencer of
`mxnumplan.py`: the `Pattern` entity with its ordering and trim rule, the
Expander (`Pattern.expand`), the Summarizer (`Pattern.summarize`), and the
Differencer (`list_compare`).  Digit strings are modelled as `List Char`;
Python exceptions are modelled as `Option`. -/

/-- The ten decimal digit characters. -/
def digitList : List Char := ['0', '1', '2', '3', '4', '5', '6', '7', '8', '9']

/-- A character of a telephone digit string. -/
def DigitC (c : Char) : Prop := c ∈ digitList

instance (c : Char) : Decidable (DigitC c) :=
  inferInstanceAs (Decidable (c ∈ digitList))

/-- Python string comparison on character lists: strict lexicographic order,
a proper initial segment sorting first. -/
def lexLt : List Char → List Char → Bool
  | [], [] => false
  | [], _ :: _ => true
  | _ :: _, [] => false
  | a :: s, b :: t => if a < b then true else if b < a then false else lexLt s t

/-- The `Pattern` entity of `mxnumplan.py`.  Field `pfx` is the attribute
named `prefix` in the source (that word is not usable as an identifier here),
`stop` is the attribute named `end`, and `summary` is the digit-set string. -/
structure Pattern where
  pfx : List Char
  start : List Char
  stop : List Char
  summary : List Char
deriving DecidableEq

/-- The trim loop of `Pattern.__init__` acting on the reversed start/end
strings: while `end` ends in '9' and `start` ends in '0', drop the trailing
character of both.  (The source reads `start[-1]` unguarded, so with `start`
empty and `end` ending in '9' Python would raise; no caller produces that
case since the two strings always have equal length.) -/
def trimRev : List Char → List Char → List Char × List Char
  | a :: s, b :: e => if a = '0' ∧ b = '9' then trimRev s e else (a :: s, b :: e)
  | s, e => (s, e)

/-- `Pattern.__init__` with explicitly given prefix/start/end: the `summary`
attribute starts out empty and the trim loop runs once. -/
def mkPattern (p s e : List Char) : Pattern :=
  let t := trimRev s.reverse e.reverse
  ⟨p, t.1.reverse, t.2.reverse, []⟩

/-- `Pattern.__lt__`. -/
def plt (a b : Pattern) : Bool :=
  lexLt a.pfx b.pfx ||
    (a.pfx == b.pfx && (lexLt a.start b.start ||
      (a.start == b.start && lexLt a.summary b.summary)))

/-- `Pattern.__eq__`. -/
def peq (a b : Pattern) : Bool :=
  a.pfx == b.pfx && a.start == b.start && a.stop == b.stop &&
    a.summary == b.summary

/-- `Pattern.__gt__`. -/
def pgt (a b : Pattern) : Bool :=
  lexLt b.pfx a.pfx ||
    (a.pfx == b.pfx && (lexLt b.start a.start ||
      (a.start == b.start && lexLt b.summary a.summary)))

/-- Decimal rendering with structural fuel; the fuel only bounds the digit
count and `decimalRepr` always supplies enough of it. -/
def decimalReprAux : Nat → Nat → List Char
  | 0, _ => []
  | fuel + 1, n =>
    if n < 10 then [Char.ofNat (48 + n)]
    else decimalReprAux fuel (n / 10) ++ [Char.ofNat (48 + n % 10)]

/-- Decimal rendering of a natural number, as Python `str(i)`. -/
def decimalRepr (n : Nat) : List Char := decimalReprAux (n + 1) n

/-- Python format `i:0{w}`: the decimal digits of `i`, left padded with '0'
up to width `w` (never truncated). -/
def padNum (w n : Nat) : List Char :=
  List.replicate (w - (decimalRepr n).length) '0' ++ decimalRepr n

/-- Numeric value of a digit string, as Python `int` on the all-digit
strings the program feeds it. -/
def digitsToNat (s : List Char) : Nat :=
  s.foldl (fun n c => n * 10 + (c.toNat - 48)) 0

/-- `Pattern.expand`: a simple pattern (no start) passes through unchanged;
a range pattern expands to one simple pattern per value in the inclusive
range, each zero padded to the width of `start`. -/
def Pattern.expand (p : Pattern) : List Pattern :=
  if p.start = [] then [p]
  else
    (List.range' (digitsToNat p.start)
        (digitsToNat p.stop + 1 - digitsToNat p.start)).map
      fun i => mkPattern (p.pfx ++ padNum p.start.length i) [] []

/-- `Pattern.expand_patterns`: expansion of every pattern of the input, in
order. -/
def Pattern.expand_patterns (i : List Pattern) : List Pattern :=
  (i.map Pattern.expand).flatten

/-- The summary pattern ejected when `Pattern.summarize` closes a collected
group: a singleton is re-emitted as the simple pattern `prefix ++ digit`, a
full group of ten digits becomes the simple pattern `prefix`, anything else
becomes a digit-set pattern. -/
def flushPattern (gp summ : List Char) : Pattern :=
  if summ.length = 1 then mkPattern (gp ++ summ) [] []
  else if summ.length ≠ 10 then { mkPattern gp [] [] with summary := summ }
  else mkPattern gp [] []

/-- The terminator `Pattern('x' * pattern_len, '', '')` appended by
`Pattern.summarize` so the final pending group is flushed. -/
def sentinel (L : Nat) : Pattern := mkPattern (List.replicate L 'x') [] []

/-- The scanning loop of `Pattern.summarize`.  The state is the current
group prefix (`prefix` in the source, `none` initially) and the collected
trailing digits (`summary`).  The source's `pattern.prefix[-1]` is made
total via `getLastD`; that branch is only reached when the prefix has length
`pattern_len`, so for the lengths the program uses the default is never
read. -/
def summarizeAux (L : Nat) : Option (List Char) → List Char → List Pattern → List Pattern
  | _, _, [] => []
  | st, summ, p :: rest =>
    if p.pfx.length ≠ L then p :: summarizeAux L st summ rest
    else if p.summary ≠ [] then p :: summarizeAux L st summ rest
    else
      match st with
      | none => summarizeAux L (some p.pfx.dropLast) [p.pfx.getLastD '?'] rest
      | some gp =>
        if p.pfx.dropLast ≠ gp then
          flushPattern gp summ ::
            summarizeAux L (some p.pfx.dropLast) [p.pfx.getLastD '?'] rest
        else
          summarizeAux L (some gp) (summ ++ [p.pfx.getLastD '?']) rest

/-- `Pattern.summarize`: one summarization pass at prefix length `L` over
the input with the terminator appended. -/
def Pattern.summarize (i : List Pattern) (L : Nat) : List Pattern :=
  summarizeAux L none [] (i ++ [sentinel L])

/-- The merge loop of `list_compare`.  Python walks the two lists with one
iterator each plus a pending head; the head is `None` exactly when the
iterator was exhausted at the last advance, so the reachable states are
encoded as a list: `[]` is an exhausted side, `o :: rest` is pending head
`o` with the iterator still holding `rest`.  Note that the two exhaustion
branches extend the output with the remainder of the other side's iterator
only — without its pending head. -/
def list_compare_loop : List Pattern → List Pattern → List Pattern × List Pattern
  | [], [] => ([], [])
  | [], _ :: newRest => ([], newRest)
  | _ :: oldRest, [] => (oldRest, [])
  | o :: oldRest, n :: newRest =>
    if peq o n then list_compare_loop oldRest newRest
    else if pgt o n then
      let r := list_compare_loop (o :: oldRest) newRest
      (r.1, n :: r.2)
    else
      let r := list_compare_loop oldRest (n :: newRest)
      (o :: r.1, r.2)
termination_by old new => old.length + new.length
decreasing_by all_goals simp_arith

/-- `list_compare`: returns the pair `(deleted, added)`. -/
def list_compare (old new : List Pattern) : List Pattern × List Pattern :=
  list_compare_loop old new

/-- A raw CSV record as consumed by `Pattern.__init__` and
`optimize_patterns`; a missing field is a `KeyError` in Python. -/
structure RawRecord where
  nir : Option (List Char)
  serie : Option (List Char)
  inicial : Option (List Char)
  final : Option (List Char)
  tipoRed : Option (List Char)
deriving DecidableEq

/-- Python `int` on a CSV field: succeeds exactly on nonempty all-digit
strings (the values the dataset contract supplies), otherwise a
`ValueError`. -/
def parseIntOpt (s : List Char) : Option Nat :=
  if s ≠ [] ∧ ∀ c ∈ s, DigitC c then some (digitsToNat s) else none

/-- `Pattern.__init__` on a raw record: a missing field (`KeyError`) or a
non-numeric bound (`ValueError` from `int`) raises, modelled as `none`;
otherwise the prefix is NIR ++ SERIE and both bounds are zero padded to
width 4. -/
def patternOfRecord (r : RawRecord) : Option Pattern :=
  match r.nir, r.serie, r.inicial, r.final with
  | some nir, some serie, some ini, some fin =>
    match parseIntOpt ini, parseIntOpt fin with
    | some i, some f => some (mkPattern (nir ++ serie) (padNum 4 i) (padNum 4 f))
    | _, _ => none
  | _, _, _, _ => none

/-- The record intake of `optimize_patterns`:
`[Pattern(p) for p in patterns if p[' TIPO_RED'] == 'MOVIL']`.  Any raised
`KeyError`/`ValueError` aborts the whole batch (`none`). -/
def parseBatch : List RawRecord → Option (List Pattern)
  | [] => some []
  | r :: rs =>
    match r.tipoRed with
    | none => none
    | some t =>
      if t = "MOVIL".toList then
        match patternOfRecord r with
        | none => none
        | some p => (parseBatch rs).map (p :: ·)
      else parseBatch rs

/-- A telephone number: a string of exactly ten decimal digits. -/
def telNum (n : List Char) : Prop := n.length = 10 ∧ ∀ c ∈ n, DigitC c

instance (n : List Char) : Decidable (telNum n) :=
  inferInstanceAs (Decidable (n.length = 10 ∧ ∀ c ∈ n, DigitC c))

/-- The set of telephone numbers covered by a simple or digit-set pattern,
read off the rendering `for_ucm`: a simple pattern is its prefix followed by
wildcard fill, a digit-set pattern additionally constrains the next digit to
the set. -/
def pmatches (p : Pattern) (n : List Char) : Prop :=
  if p.summary = [] then n.take p.pfx.length = p.pfx
  else ∃ c ∈ p.summary, n.take (p.pfx.length + 1) = p.pfx ++ [c]

instance (p : Pattern) (n : List Char) : Decidable (pmatches p n) := by
  unfold pmatches
  split <;> infer_instance

/-! ### Lexicographic order on character lists -/

theorem lexLt_nil (l : List Char) : lexLt l [] = false := by
  cases l <;> rfl

theorem lexLt_irrefl (l : List Char) : lexLt l l = false := by
  induction l with
  | nil => rfl
  | cons a s ih => simp [lexLt, ih]

theorem lexLt_cons_iff (a b : Char) (s t : List Char) :
    lexLt (a :: s) (b :: t) = true ↔ a < b ∨ (a = b ∧ lexLt s t = true) := by
  rcases lt_trichotomy a b with h | h | h
  · simp [lexLt, h]
  · subst h; simp [lexLt]
  · simp [lexLt, lt_asymm h, h, h.ne']

theorem lexLt_asymm : ∀ (a b : List Char), lexLt a b = true → lexLt b a = false
  | [], [] => by simp [lexLt]
  | [], _ :: _ => by simp [lexLt_nil]
  | _ :: _, [] => by simp [lexLt]
  | a :: s, b :: t => by
    intro h
    rw [lexLt_cons_iff] at h
    rcases h with h | ⟨rfl, h⟩
    · rw [Bool.eq_false_iff]
      intro hba
      rw [lexLt_cons_iff] at hba
      rcases hba with hba | ⟨rfl, _⟩
      · exact absurd hba (lt_asymm h)
      · exact absurd h (lt_irrefl _)
    · rw [Bool.eq_false_iff]
      intro hba
      rw [lexLt_cons_iff] at hba
      rcases hba with hba | ⟨_, hba⟩
      · exact absurd hba (lt_irrefl _)
      · exact absurd hba (by rw [lexLt_asymm s t h]; simp)

theorem lexLt_eq_of_not : ∀ (a b : List Char),
    lexLt a b = false → lexLt b a = false → a = b
  | [], [] => fun _ _ => rfl
  | [], _ :: _ => by simp [lexLt]
  | _ :: _, [] => by simp [lexLt]
  | a :: s, b :: t => fun h1 h2 => by
    rcases lt_trichotomy a b with hab | hab | hab
    · rw [Bool.eq_false_iff] at h1
      exact absurd (by rw [lexLt_cons_iff]; exact Or.inl hab) h1
    · subst hab
      rw [Bool.eq_false_iff] at h1 h2
      have hst : s = t := by
        apply lexLt_eq_of_not s t <;> rw [Bool.eq_false_iff] <;> intro hc
        · exact h1 (by rw [lexLt_cons_iff]; exact Or.inr ⟨rfl, hc⟩)
        · exact h2 (by rw [lexLt_cons_iff]; exact Or.inr ⟨rfl, hc⟩)
      rw [hst]
    · rw [Bool.eq_false_iff] at h2
      exact absurd (by rw [lexLt_cons_iff]; exact Or.inl hab) h2

theorem lexLt_trans : ∀ (a b c : List Char),
    lexLt a b = true → lexLt b c = true → lexLt a c = true
  | _, [], _ => fun h _ => by rw [lexLt_nil] at h; cases h
  | _, _ :: _, [] => fun _ h => by rw [lexLt_nil] at h; cases h
  | [], _ :: _, _ :: _ => fun _ _ => rfl
  | a :: s, b :: t, c :: u => fun h1 h2 => by
    rw [lexLt_cons_iff] at h1 h2 ⊢
    rcases h1 with h1 | ⟨rfl, h1⟩
    · rcases h2 with h2 | ⟨rfl, h2⟩
      · exact Or.inl (lt_trans h1 h2)
      · exact Or.inl h1
    · rcases h2 with h2 | ⟨rfl, h2⟩
      · exact Or.inl h2
      · exact Or.inr ⟨rfl, lexLt_trans s t u h1 h2⟩

theorem lexLt_append_last (l : List Char) (a b : Char) :
    lexLt (l ++ [a]) (l ++ [b]) = true ↔ a < b := by
  induction l with
  | nil => simp [lexLt_cons_iff, lexLt]
  | cons c l ih => simpa [lexLt_cons_iff] using ih

/-! ### The Pattern comparison operators -/

theorem peq_iff (a b : Pattern) : peq a b = true ↔ a = b := by
  cases a; cases b
  simp only [peq, Bool.and_eq_true, beq_iff_eq, Pattern.mk.injEq]
  tauto

theorem plt_irrefl (a : Pattern) : plt a a = false := by
  simp [plt, lexLt_irrefl]

theorem plt_ne {a b : Pattern} (h : plt a b = true) : a ≠ b := by
  rintro rfl
  rw [plt_irrefl] at h
  cases h

theorem pgt_eq (a b : Pattern) : pgt a b = plt b a := by
  rw [Bool.eq_iff_iff]
  simp only [pgt, plt, Bool.or_eq_true, Bool.and_eq_true, beq_iff_eq]
  constructor <;> rintro (h | ⟨e, h | ⟨f, h⟩⟩)
  · exact Or.inl h
  · exact Or.inr ⟨e.symm, Or.inl h⟩
  · exact Or.inr ⟨e.symm, Or.inr ⟨f.symm, h⟩⟩
  · exact Or.inl h
  · exact Or.inr ⟨e.symm, Or.inl h⟩
  · exact Or.inr ⟨e.symm, Or.inr ⟨f.symm, h⟩⟩

theorem plt_trans {a b c : Pattern} (h1 : plt a b = true) (h2 : plt b c = true) :
    plt a c = true := by
  simp only [plt, Bool.or_eq_true, Bool.and_eq_true, beq_iff_eq] at h1 h2 ⊢
  rcases h1 with h1 | ⟨e1, h1⟩ <;> rcases h2 with h2 | ⟨e2, h2⟩
  · exact Or.inl (lexLt_trans _ _ _ h1 h2)
  · rw [← e2]; exact Or.inl h1
  · rw [e1]; exact Or.inl h2
  · refine Or.inr ⟨e1.trans e2, ?_⟩
    rcases h1 with h1 | ⟨f1, h1⟩ <;> rcases h2 with h2 | ⟨f2, h2⟩
    · exact Or.inl (lexLt_trans _ _ _ h1 h2)
    · rw [← f2]; exact Or.inl h1
    · rw [f1]; exact Or.inl h2
    · exact Or.inr ⟨f1.trans f2, lexLt_trans _ _ _ h1 h2⟩

/-! ### Construction and trimming -/

theorem mkPattern_nil (p : List Char) : mkPattern p [] [] = ⟨p, [], [], []⟩ := rfl

/-- The trim loop removes a common block of trailing '0's of `start` and
'9's of `end` and leaves the rest unchanged. -/
theorem trimRev_spec : ∀ (s e : List Char), ∃ k,
    s = List.replicate k '0' ++ (trimRev s e).1 ∧
    e = List.replicate k '9' ++ (trimRev s e).2 := by
  intro s
  induction s with
  | nil => intro e; exact ⟨0, by simp [trimRev], by cases e <;> simp [trimRev]⟩
  | cons a s ih =>
    intro e
    cases e with
    | nil => exact ⟨0, by simp [trimRev], by simp [trimRev]⟩
    | cons b e =>
      rw [trimRev]
      split
      · rename_i h
        obtain ⟨rfl, rfl⟩ := h
        obtain ⟨k, hs, he⟩ := ih e
        exact ⟨k + 1, by rw [List.replicate_succ]; simpa using hs,
          by rw [List.replicate_succ]; simpa using he⟩
      · exact ⟨0, by simp, by simp⟩

theorem mkPattern_decompose (p s e : List Char) : ∃ k,
    s = (mkPattern p s e).start ++ List.replicate k '0' ∧
    e = (mkPattern p s e).stop ++ List.replicate k '9' ∧
    (mkPattern p s e).pfx = p ∧ (mkPattern p s e).summary = [] := by
  obtain ⟨k, hs, he⟩ := trimRev_spec s.reverse e.reverse
  refine ⟨k, ?_, ?_, rfl, rfl⟩
  · have := congrArg List.reverse hs
    simpa [mkPattern, List.reverse_append] using this
  · have := congrArg List.reverse he
    simpa [mkPattern, List.reverse_append] using this

/-! ### Decimal rendering and numeric value -/

theorem digitsToNat_append_singleton (l : List Char) (c : Char) :
    digitsToNat (l ++ [c]) = digitsToNat l * 10 + (c.toNat - 48) := by
  simp [digitsToNat, List.foldl_append]

theorem charOfNat_toNat {m : Nat} (hm : m < 10) : (Char.ofNat (48 + m)).toNat = 48 + m := by
  interval_cases m <;> decide

theorem digitsToNat_decimalReprAux :
    ∀ (fuel n : Nat), n < fuel → digitsToNat (decimalReprAux fuel n) = n
  | fuel + 1, n, h => by
    rw [decimalReprAux]
    split
    · rename_i h10
      show digitsToNat [Char.ofNat (48 + n)] = n
      simp [digitsToNat, charOfNat_toNat h10]
    · rename_i h10
      rw [digitsToNat_append_singleton, charOfNat_toNat (Nat.mod_lt _ (by omega)),
        digitsToNat_decimalReprAux fuel (n / 10) (by omega)]
      omega

theorem digitsToNat_decimalRepr (n : Nat) : digitsToNat (decimalRepr n) = n :=
  digitsToNat_decimalReprAux (n + 1) n (by omega)

theorem digitsToNat_cons_zero (l : List Char) :
    digitsToNat ('0' :: l) = digitsToNat l := by
  show List.foldl _ (0 * 10 + ('0'.toNat - 48)) l = List.foldl _ 0 l
  rw [show (0 * 10 + ('0'.toNat - 48)) = 0 from by decide]

theorem digitsToNat_zeros_append (k : Nat) (l : List Char) :
    digitsToNat (List.replicate k '0' ++ l) = digitsToNat l := by
  induction k with
  | zero => simp
  | succ k ih =>
    rw [List.replicate_succ, List.cons_append, digitsToNat_cons_zero, ih]

theorem digitsToNat_padNum (w n : Nat) : digitsToNat (padNum w n) = n := by
  rw [padNum, digitsToNat_zeros_append, digitsToNat_decimalRepr]

theorem digitsToNat_append_zeros (l : List Char) (k : Nat) :
    digitsToNat (l ++ List.replicate k '0') = digitsToNat l * 10 ^ k := by
  induction k with
  | zero => simp
  | succ k ih =>
    rw [List.replicate_succ', ← List.append_assoc, digitsToNat_append_singleton, ih]
    have : '0'.toNat - 48 = 0 := by decide
    rw [this]
    ring

theorem digitsToNat_append_nines (l : List Char) (k : Nat) :
    digitsToNat (l ++ List.replicate k '9') = digitsToNat l * 10 ^ k + (10 ^ k - 1) := by
  induction k with
  | zero => simp
  | succ k ih =>
    rw [List.replicate_succ', ← List.append_assoc, digitsToNat_append_singleton, ih]
    have h9 : '9'.toNat - 48 = 9 := by decide
    have hp : 1 ≤ 10 ^ k := Nat.one_le_pow _ _ (by omega)
    rw [h9, pow_succ]
    cases Nat.exists_eq_add_of_le hp with
    | intro m hm => rw [hm]; ring_nf; omega

/-! ### Matching semantics helpers -/

theorem pmatches_simple (pfx s1 s2 : List Char) (n : List Char) :
    pmatches ⟨pfx, s1, s2, []⟩ n ↔ n.take pfx.length = pfx := by
  simp [pmatches]

theorem pmatches_digitset (pfx s1 s2 summ : List Char) (hs : summ ≠ []) (n : List Char) :
    pmatches ⟨pfx, s1, s2, summ⟩ n ↔
      ∃ c ∈ summ, n.take (pfx.length + 1) = pfx ++ [c] := by
  simp [pmatches, hs]

theorem take_eq_append_singleton {n l : List Char} {c : Char} :
    n.take (l.length + 1) = l ++ [c] ↔ n.take l.length = l ∧ n[l.length]? = some c := by
  rw [List.take_succ]
  constructor
  · intro h
    cases hg : n[l.length]? with
    | none =>
      rw [hg] at h
      simp only [Option.toList_none, List.append_nil] at h
      have h1 := congrArg List.length h
      have h2 : (n.take l.length).length ≤ l.length := by
        rw [List.length_take]; omega
      simp at h1
      omega
    | some d =>
      rw [hg] at h
      simp only [Option.toList_some] at h
      obtain ⟨h1, h2⟩ := List.append_inj' h (by simp)
      simp only [List.cons.injEq, and_true] at h2
      subst h2
      exact ⟨h1, rfl⟩
  · rintro ⟨h1, h2⟩
    rw [h1, h2]
    rfl

theorem telNum_get (n : List Char) (hn : telNum n) (k : Nat) (hk : k < 10) :
    ∃ c, n[k]? = some c ∧ DigitC c := by
  obtain ⟨hlen, hdig⟩ := hn
  have hk' : k < n.length := by omega
  exact ⟨n[k], by simp [List.getElem?_eq_getElem hk'],
    hdig _ (List.getElem_mem hk')⟩

theorem digit_complete {l : List Char} (hs : List.Pairwise (· < ·) l)
    (hd : ∀ c ∈ l, DigitC c) (hlen : l.length = 10) : ∀ c, DigitC c → c ∈ l := by
  have hnd : l.Nodup := hs.imp ne_of_lt
  have hsp : l.Subperm digitList := hnd.subperm fun c hc => hd c hc
  have hperm : l.Perm digitList := hsp.perm_of_length_le (by rw [hlen]; decide)
  intro c hc
  exact hperm.mem_iff.mpr hc

/-! ### Concrete example inputs -/

/-- The ten simple patterns "55510" … "55519". -/
def exTen : List Pattern :=
  [⟨['5','5','5','1','0'], [], [], []⟩, ⟨['5','5','5','1','1'], [], [], []⟩,
   ⟨['5','5','5','1','2'], [], [], []⟩, ⟨['5','5','5','1','3'], [], [], []⟩,
   ⟨['5','5','5','1','4'], [], [], []⟩, ⟨['5','5','5','1','5'], [], [], []⟩,
   ⟨['5','5','5','1','6'], [], [], []⟩, ⟨['5','5','5','1','7'], [], [], []⟩,
   ⟨['5','5','5','1','8'], [], [], []⟩, ⟨['5','5','5','1','9'], [], [], []⟩]

theorem dropLast_replicate_char (L : Nat) (c : Char) :
    (List.replicate L c).dropLast = List.replicate (L - 1) c := by
  cases L with
  | zero => rfl
  | succ L => rw [List.replicate_succ', List.dropLast_concat]; simp

/-- C6: constructing a range pattern applies the trim rule.  Stated as: one
step of the loop drops a shared trailing start-'0' / end-'9' pair from
arbitrary bounds; construction with start "00", end "99" yields empty start
and end; construction with start "10", end "90" leaves both unchanged. -/
theorem c6_trim :
    (∀ p s e : List Char, mkPattern p (s ++ ['0']) (e ++ ['9']) = mkPattern p s e) ∧
    (∀ p : List Char, mkPattern p ['0','0'] ['9','9'] = ⟨p, [], [], []⟩) ∧
    (∀ p : List Char, mkPattern p ['1','0'] ['9','0'] = ⟨p, ['1','0'], ['9','0'], []⟩) := by
  refine ⟨fun p s e => ?_, fun p => rfl, fun p => rfl⟩
  simp [mkPattern, trimRev, List.reverse_append]

/-- C9: empty input is a valid, non-error case at every stage: expanding no
patterns yields nothing, one summarization pass over no patterns yields
nothing (the synthetic terminator is not emitted), and the diff of two empty
lists is a pair of empty lists. -/
theorem c9_empty :
    Pattern.expand_patterns [] = [] ∧ (∀ L, Pattern.summarize [] L = []) ∧
    list_compare [] [] = ([], []) := by
  refine ⟨rfl, fun L => ?_, by rw [list_compare, list_compare_loop]⟩
  show summarizeAux L none [] [sentinel L] = []
  rw [summarizeAux]
  simp [sentinel, mkPattern_nil, summarizeAux]

/-- C7: a group that has collected all ten digits 0–9 is closed as exactly
one simple pattern (no digit-set) whose prefix is the shared length-(L-1)
group prefix, and one summarization pass over the ten simple patterns
"55510" … "55519" at length 5 yields the single simple pattern "5551". -/
theorem c7_full_rule :
    (∀ gp : List Char, flushPattern gp digitList = ⟨gp, [], [], []⟩) ∧
    Pattern.summarize exTen 5 = [⟨['5','5','5','1'], [], [], []⟩] := by
  refine ⟨fun gp => ?_, by decide⟩
  rw [flushPattern]
  simp [digitList, mkPattern_nil]

/-- C8: a group consisting of exactly one pattern is closed by re-emitting
a digit-set-free pattern equal to the original: a summarization pass at
length L over one simple pattern of prefix length L (whose prefix is not
the terminator's group) returns exactly that pattern. -/
theorem c8_singleton (p : Pattern) (L : Nat) (hlen : p.pfx.length = L)
    (hsum : p.summary = []) (hstart : p.start = []) (hstop : p.stop = [])
    (hne : p.pfx ≠ []) (hx : p.pfx.dropLast ≠ List.replicate (L - 1) 'x') :
    Pattern.summarize [p] L = [p] := by
  obtain ⟨l, a, hpl⟩ := List.eq_nil_or_concat p.pfx |>.resolve_left hne
  rw [List.concat_eq_append] at hpl
  show summarizeAux L none [] [p, sentinel L] = [p]
  rw [summarizeAux]
  rw [if_neg (by simp [hlen]), if_neg (by simp [hsum])]
  rw [summarizeAux]
  have hsl : (sentinel L).pfx.length = L := by simp [sentinel, mkPattern_nil]
  have hss : (sentinel L).summary = [] := by simp [sentinel, mkPattern_nil]
  rw [if_neg (by simp [hsl]), if_neg (by simp [hss])]
  have hsd : (sentinel L).pfx.dropLast = List.replicate (L - 1) 'x' := by
    simp [sentinel, mkPattern_nil, dropLast_replicate_char]
  rw [if_pos (by rw [hsd]; exact fun h => hx h.symm)]
  rw [summarizeAux]
  have hfl : p.pfx.dropLast ++ [p.pfx.getLastD '?'] = p.pfx := by
    rw [hpl, List.dropLast_concat, List.getLastD_concat]
  rw [flushPattern]
  rw [if_pos (by simp)]
  rw [hfl, mkPattern_nil]
  cases p
  simp_all

/-- C4 counterexample: two range patterns with equal prefix, equal start and
empty digit-set but different ends satisfy none of `<`, `==`, `>`: the
comparison ignores `end` while equality requires it, so trichotomy fails on
range patterns. -/
theorem c4_counterexample :
    plt ⟨['5'], ['0'], ['1'], []⟩ ⟨['5'], ['0'], ['2'], []⟩ = false ∧
    peq ⟨['5'], ['0'], ['1'], []⟩ ⟨['5'], ['0'], ['2'], []⟩ = false ∧
    pgt ⟨['5'], ['0'], ['1'], []⟩ ⟨['5'], ['0'], ['2'], []⟩ = false ∧
    (⟨['5'], ['0'], ['1'], []⟩ : Pattern) ≠ ⟨['5'], ['0'], ['2'], []⟩ := by
  decide

/-- C4 (amended): on simple and digit-set patterns (empty `start` and
`end`) the comparison is a strict total order: exactly one of `p < q`,
`p == q`, `p > q` holds. -/
theorem c4_amended (p q : Pattern) (h1 : p.start = []) (h2 : p.stop = [])
    (h3 : q.start = []) (h4 : q.stop = []) :
    (plt p q = true ∧ peq p q = false ∧ pgt p q = false) ∨
    (peq p q = true ∧ plt p q = false ∧ pgt p q = false) ∨
    (pgt p q = true ∧ plt p q = false ∧ peq p q = false) := by
  obtain ⟨pp, ps1, ps2, ps⟩ := p
  obtain ⟨qp, qs1, qs2, qs⟩ := q
  simp only at h1 h2 h3 h4
  subst h1; subst h2; subst h3; subst h4
  simp only [plt, peq, pgt]
  cases hpq : lexLt pp qp with
  | true =>
    have hne : pp ≠ qp := fun h => by subst h; rw [lexLt_irrefl] at hpq; cases hpq
    have hqp : lexLt qp pp = false := lexLt_asymm _ _ hpq
    left
    simp [hpq, hqp, hne, beq_iff_eq]
  | false =>
    cases hqp : lexLt qp pp with
    | true =>
      have hne : pp ≠ qp := fun h => by subst h; rw [lexLt_irrefl] at hqp; cases hqp
      right; right
      simp [hpq, hqp, hne, beq_iff_eq]
    | false =>
      have hpp : pp = qp := lexLt_eq_of_not _ _ hpq hqp
      subst hpp
      cases hss : lexLt ps qs with
      | true =>
        have hnp : ps ≠ qs := fun h => by subst h; rw [lexLt_irrefl] at hss; cases hss
        have hs2 : lexLt qs ps = false := lexLt_asymm _ _ hss
        left
        simp [hpq, hss, hs2, hnp, beq_iff_eq, lexLt]
      | false =>
        cases hs2 : lexLt qs ps with
        | true =>
          have hnp : ps ≠ qs := fun h => by subst h; rw [lexLt_irrefl] at hs2; cases hs2
          right; right
          simp [hpq, hss, hs2, hnp, beq_iff_eq, lexLt]
        | false =>
          have heq : ps = qs := lexLt_eq_of_not _ _ hss hs2
          subst heq
          right; left
          simp [hpq, hss, beq_iff_eq, lexLt]

/-- C4 witness: the amended trichotomy applied to the simple patterns "1"
and "2". -/
theorem c4_witness :
    (plt ⟨['1'], [], [], []⟩ ⟨['2'], [], [], []⟩ = true ∧
      peq ⟨['1'], [], [], []⟩ ⟨['2'], [], [], []⟩ = false ∧
      pgt ⟨['1'], [], [], []⟩ ⟨['2'], [], [], []⟩ = false) ∨
    (peq ⟨['1'], [], [], []⟩ ⟨['2'], [], [], []⟩ = true ∧
      plt ⟨['1'], [], [], []⟩ ⟨['2'], [], [], []⟩ = false ∧
      pgt ⟨['1'], [], [], []⟩ ⟨['2'], [], [], []⟩ = false) ∨
    (pgt ⟨['1'], [], [], []⟩ ⟨['2'], [], [], []⟩ = true ∧
      plt ⟨['1'], [], [], []⟩ ⟨['2'], [], [], []⟩ = false ∧
      peq ⟨['1'], [], [], []⟩ ⟨['2'], [], [], []⟩ = false) :=
  c4_amended ⟨['1'], [], [], []⟩ ⟨['2'], [], [], []⟩ rfl rfl rfl rfl

/-- C2: the Differencer drops the pending head of a side when the other
side's iterator is exhausted, contradicting the function's own docstring
("deleted: entries in old but not in new; added: entries in new but not in
old").  Evaluated at two failing inputs: on `old = []`, `new = [55512]` it
returns `([], [])` instead of `([], [55512])`; on the spec's own example
`old = [55512, 55513]`, `new = [55513, 55514]` it returns
`([55512], [])` — the added pattern 55514 is lost. -/
theorem c2_bug :
    list_compare [] [⟨['5','5','5','1','2'], [], [], []⟩] = ([], []) ∧
    list_compare [⟨['5','5','5','1','2'], [], [], []⟩, ⟨['5','5','5','1','3'], [], [], []⟩]
        [⟨['5','5','5','1','3'], [], [], []⟩, ⟨['5','5','5','1','4'], [], [], []⟩] =
      ([⟨['5','5','5','1','2'], [], [], []⟩], []) := by
  constructor
  · rw [list_compare, list_compare_loop]
  · rw [list_compare, list_compare_loop, if_neg (by decide), if_neg (by decide)]
    rw [list_compare_loop, if_pos (by decide)]
    rw [list_compare_loop]

/-- An out-of-order range stays out of order after the trim and therefore
expands to the empty list, with no error signalled anywhere. -/
theorem expand_nil_of_lt (pfx s e : List Char)
    (h : digitsToNat e < digitsToNat s) : (mkPattern pfx s e).expand = [] := by
  obtain ⟨k, hs, he, hp, hm⟩ := mkPattern_decompose pfx s e
  set P := mkPattern pfx s e with hP
  have hsv : digitsToNat s = digitsToNat P.start * 10 ^ k := by
    conv_lhs => rw [hs]
    exact digitsToNat_append_zeros _ _
  have hev : digitsToNat e = digitsToNat P.stop * 10 ^ k + (10 ^ k - 1) := by
    conv_lhs => rw [he]
    exact digitsToNat_append_nines _ _
  have hpow : 1 ≤ 10 ^ k := Nat.one_le_pow _ _ (by omega)
  have hlt : digitsToNat P.stop < digitsToNat P.start := by
    rw [hsv, hev] at h
    by_contra hc
    push_neg at hc
    have := Nat.mul_le_mul_right (10 ^ k) hc
    omega
  have hs0 : P.start ≠ [] := by
    intro h0
    rw [h0] at hlt
    simp [digitsToNat] at hlt
  rw [Pattern.expand, if_neg hs0]
  rw [show digitsToNat P.stop + 1 - digitsToNat P.start = 0 from by omega]
  rfl

/-- C5 counterexample: the record (NIR "55", SERIE "1234", start 0042, end
0010, type MOVIL) has an out-of-order range, yet processing does not fail:
the record is accepted into the batch, reaches the Expander, and is silently
expanded to the empty set of patterns. -/
theorem c5_counterexample :
    patternOfRecord ⟨some ['5','5'], some ['1','2','3','4'], some ['0','0','4','2'],
        some ['0','0','1','0'], some ['M','O','V','I','L']⟩ =
      some ⟨['5','5','1','2','3','4'], ['0','0','4','2'], ['0','0','1','0'], []⟩ ∧
    parseBatch [⟨some ['5','5'], some ['1','2','3','4'], some ['0','0','4','2'],
        some ['0','0','1','0'], some ['M','O','V','I','L']⟩] =
      some [⟨['5','5','1','2','3','4'], ['0','0','4','2'], ['0','0','1','0'], []⟩] ∧
    Pattern.expand ⟨['5','5','1','2','3','4'], ['0','0','4','2'], ['0','0','1','0'], []⟩ =
      [] := by
  refine ⟨by decide, by decide, by decide⟩

/-- C5 (amended): a record with a missing required field or a non-numeric
bound fails the whole batch before reaching the Expander, as claimed; but a
record whose bounds are out of order (start numerically greater than end) is
not rejected — it is accepted and silently expanded to an empty set of
patterns. -/
theorem c5_amended :
    (∀ r : RawRecord,
      (r.nir = none ∨ r.serie = none ∨ r.inicial = none ∨ r.final = none) →
      patternOfRecord r = none) ∧
    (∀ (r : RawRecord) (s : List Char),
      (r.inicial = some s ∨ r.final = some s) → parseIntOpt s = none →
      patternOfRecord r = none) ∧
    (∀ (rs : List RawRecord) (r : RawRecord), r ∈ rs →
      r.tipoRed = some ['M','O','V','I','L'] → patternOfRecord r = none →
      parseBatch rs = none) ∧
    (∀ (r : RawRecord) (nir serie ini fin : List Char) (i f : Nat),
      r.nir = some nir → r.serie = some serie → r.inicial = some ini →
      r.final = some fin → parseIntOpt ini = some i → parseIntOpt fin = some f →
      f < i → ∃ p, patternOfRecord r = some p ∧ p.expand = []) := by
  refine ⟨?_, ?_, ?_, ?_⟩
  · intro r h
    obtain ⟨n1, n2, n3, n4, n5⟩ := r
    cases n1 <;> cases n2 <;> cases n3 <;> cases n4 <;> simp_all [patternOfRecord]
  · intro r s hmem hpi
    obtain ⟨n1, n2, n3, n4, n5⟩ := r
    simp only at hmem
    cases n1 <;> cases n2 <;> cases n3 <;> cases n4 <;>
      rcases hmem with h | h <;> simp_all [patternOfRecord]
  · intro rs r hmem hred hnone
    induction rs with
    | nil => cases hmem
    | cons a rs ih =>
      rcases List.mem_cons.mp hmem with rfl | hmem'
      · rw [parseBatch, hred]
        dsimp only
        rw [if_pos (by decide), hnone]
      · have hrs := ih hmem'
        cases hat : a.tipoRed with
        | none => rw [parseBatch, hat]
        | some t =>
          rw [parseBatch, hat]
          dsimp only
          by_cases ht : t = "MOVIL".toList
          · rw [if_pos ht]
            cases hpa : patternOfRecord a with
            | none => rfl
            | some p =>
              dsimp only
              rw [hrs]
              rfl
          · rw [if_neg ht]
            exact hrs
  · intro r nir serie ini fin i f h1 h2 h3 h4 h5 h6 hlt
    obtain ⟨n1, n2, n3, n4, n5⟩ := r
    simp only at h1 h2 h3 h4
    subst h1; subst h2; subst h3; subst h4
    refine ⟨mkPattern (nir ++ serie) (padNum 4 i) (padNum 4 f), ?_, ?_⟩
    · simp [patternOfRecord, h5, h6]
    · apply expand_nil_of_lt
      rw [digitsToNat_padNum, digitsToNat_padNum]
      exact hlt

/-- C5 witness: the amended behavior at concrete records: a record missing
its NIR fails; a record with non-numeric start fails; a batch holding a
failing MOVIL record fails; and the out-of-order record (start 42, end 10)
is accepted and expands to nothing. -/
theorem c5_witness :
    patternOfRecord ⟨none, some ['1'], some ['1'], some ['1'], some ['M']⟩ = none ∧
    patternOfRecord ⟨some ['5'], some ['1'], some ['a','b'], some ['1'],
      some ['M']⟩ = none ∧
    parseBatch [⟨some ['5'], some ['1'], some ['a','b'], some ['1'],
      some ['M','O','V','I','L']⟩] = none ∧
    ∃ p, patternOfRecord ⟨some ['5','5'], some ['1','2','3','4'], some ['0','0','4','2'],
      some ['0','0','1','0'], some ['M','O','V','I','L']⟩ = some p ∧ p.expand = [] := by
  refine ⟨c5_amended.1 _ (Or.inl rfl), c5_amended.2.1 _ ['a','b'] (Or.inl rfl) (by decide),
    c5_amended.2.2.1 _ _ (List.mem_singleton.mpr rfl) rfl
      (c5_amended.2.1 _ ['a','b'] (Or.inl rfl) (by decide)),
    c5_amended.2.2.2 _ ['5','5'] ['1','2','3','4'] ['0','0','4','2'] ['0','0','1','0']
      42 10 rfl rfl rfl rfl (by decide) (by decide) (by omega)⟩

/-- C8 witness: the singleton rule applied to the single simple pattern
"55512" at length 5. -/
theorem c8_witness :
    Pattern.summarize [⟨['5','5','5','1','2'], [], [], []⟩] 5 =
      [⟨['5','5','5','1','2'], [], [], []⟩] :=
  c8_singleton ⟨['5','5','5','1','2'], [], [], []⟩ 5 rfl rfl rfl rfl
    (by decide) (by decide)

/-- C3: Expander coverage: a range pattern whose start and end are digit
strings of equal width d with start ≤ end expands to exactly the patterns
`prefix ++ zero-padded(i, d)` for i in the inclusive range, without
duplicates or omissions; and a pattern that is already simple (no start)
expands to exactly itself. -/
theorem c3_expander :
    (∀ (p : Pattern) (d : Nat), 0 < d → p.start.length = d → p.stop.length = d →
      (∀ c ∈ p.start, DigitC c) → (∀ c ∈ p.stop, DigitC c) →
      digitsToNat p.start ≤ digitsToNat p.stop →
      ((∀ q, q ∈ p.expand ↔ ∃ i, digitsToNat p.start ≤ i ∧ i ≤ digitsToNat p.stop ∧
          q = mkPattern (p.pfx ++ padNum d i) [] []) ∧ p.expand.Nodup)) ∧
    (∀ p : Pattern, p.start = [] → p.expand = [p]) := by
  constructor
  · intro p d hd hsl hel hsd hed hle
    have hne : p.start ≠ [] := by
      intro h0
      rw [h0] at hsl
      simp at hsl
      omega
    rw [Pattern.expand, if_neg hne, hsl]
    constructor
    · intro q
      simp only [List.mem_map, List.mem_range'_1]
      constructor
      · rintro ⟨i, ⟨hi1, hi2⟩, rfl⟩
        exact ⟨i, hi1, by omega, rfl⟩
      · rintro ⟨i, hi1, hi2, rfl⟩
        exact ⟨i, ⟨hi1, by omega⟩, rfl⟩
    · apply List.Nodup.map_on
      · intro x hx y hy hxy
        rw [mkPattern_nil, mkPattern_nil] at hxy
        have h2 : p.pfx ++ padNum d x = p.pfx ++ padNum d y :=
          congrArg Pattern.pfx hxy
        have h3 := List.append_cancel_left h2
        have h4 := congrArg digitsToNat h3
        rwa [digitsToNat_padNum, digitsToNat_padNum] at h4
      · exact List.nodup_range' _ _
  · intro p h
    rw [Pattern.expand, if_pos h]

/-- C3 witness: coverage of the range pattern 555 12–14 evaluated at the
candidate member with i = 13, duplicate-freeness of that expansion, and the
identity case on the simple pattern "55512". -/
theorem c3_witness :
    ((mkPattern (['5','5','5'] ++ padNum 2 13) [] []) ∈
        (⟨['5','5','5'], ['1','2'], ['1','4'], []⟩ : Pattern).expand ↔
      ∃ i, digitsToNat ['1','2'] ≤ i ∧ i ≤ digitsToNat ['1','4'] ∧
        mkPattern (['5','5','5'] ++ padNum 2 13) [] [] =
          mkPattern (['5','5','5'] ++ padNum 2 i) [] []) ∧
    (⟨['5','5','5'], ['1','2'], ['1','4'], []⟩ : Pattern).expand.Nodup ∧
    (⟨['5','5','5','1','2'], [], [], []⟩ : Pattern).expand =
      [⟨['5','5','5','1','2'], [], [], []⟩] := by
  have h := c3_expander.1 ⟨['5','5','5'], ['1','2'], ['1','4'], []⟩ 2 (by decide)
    (by decide) (by decide) (by decide) (by decide) (by decide)
  exact ⟨h.1 _, h.2, c3_expander.2 _ rfl⟩

/-! ### The terminator is never emitted (C10) -/

theorem sentinel_pfx (L : Nat) : (sentinel L).pfx = List.replicate L 'x' := rfl

theorem sentinel_summary (L : Nat) : (sentinel L).summary = [] := rfl

theorem flushPattern_eq (gp summ : List Char) :
    flushPattern gp summ =
      if summ.length = 1 then (⟨gp ++ summ, [], [], []⟩ : Pattern)
      else if summ.length ≠ 10 then ⟨gp, [], [], summ⟩
      else ⟨gp, [], [], []⟩ := by
  by_cases h1 : summ.length = 1
  · simp [flushPattern, h1, mkPattern_nil]
  · by_cases h2 : summ.length = 10
    · simp [flushPattern, h1, h2, mkPattern_nil]
    · simp [flushPattern, h1, h2, mkPattern_nil]

theorem headD_append_left {l : List Char} (h : l ≠ []) (t : List Char) (d : Char) :
    (l ++ t).headD d = l.headD d := by
  cases l with
  | nil => cases h rfl
  | cons a s => rfl

/-- A flushed group summary never equals the terminator, provided the group
was opened by a pattern whose prefix differs from the terminator's. -/
theorem flushPattern_ne_sentinel (L : Nat) (gp summ : List Char)
    (hne : summ ≠ []) (hlen : (gp ++ [summ.headD '?']).length = L)
    (hx : gp ++ [summ.headD '?'] ≠ List.replicate L 'x') :
    flushPattern gp summ ≠ sentinel L := by
  have hsl : sentinel L = ⟨List.replicate L 'x', [], [], []⟩ := rfl
  rw [flushPattern_eq, hsl]
  simp only [List.length_append, List.length_singleton] at hlen
  split
  · rename_i h1
    obtain ⟨c, rfl⟩ : ∃ c, summ = [c] := by
      cases summ with
      | nil => cases hne rfl
      | cons c t =>
        cases t with
        | nil => exact ⟨c, rfl⟩
        | cons d u => simp at h1
    intro hc
    rw [Pattern.mk.injEq] at hc
    exact hx (by simpa using hc.1)
  · split <;>
    · intro hc
      rw [Pattern.mk.injEq] at hc
      have := congrArg List.length hc.1
      simp at this
      omega

theorem summarizeAux_no_sentinel (L : Nat) :
    ∀ (rest : List Pattern) (gp summ : List Char),
      (∀ p ∈ rest, p.pfx ≠ List.replicate L 'x') → summ ≠ [] →
      (gp ++ [summ.headD '?']).length = L →
      gp ++ [summ.headD '?'] ≠ List.replicate L 'x' →
      sentinel L ∉ summarizeAux L (some gp) summ (rest ++ [sentinel L])
  | [], gp, summ, hr, h1, h2, h3 => by
    rw [List.nil_append, summarizeAux]
    rw [if_neg (by simp [sentinel_pfx]), if_neg (by simp [sentinel_summary])]
    by_cases hd : (sentinel L).pfx.dropLast ≠ gp
    · rw [if_pos hd, summarizeAux]
      intro hmem
      rcases List.mem_cons.mp hmem with heq | hmem'
      · exact flushPattern_ne_sentinel L gp summ h1 h2 h3 heq.symm
      · exact List.not_mem_nil _ hmem'
    · rw [if_neg hd, summarizeAux]
      exact List.not_mem_nil _
  | p :: rest, gp, summ, hr, h1, h2, h3 => by
    rw [List.cons_append, summarizeAux]
    by_cases hl : p.pfx.length ≠ L
    · rw [if_pos hl]
      intro hmem
      rcases List.mem_cons.mp hmem with heq | hmem'
      · exact hr p (List.mem_cons_self _ _) (by rw [← heq]; rfl)
      · exact summarizeAux_no_sentinel L rest gp summ
          (fun q hq => hr q (List.mem_cons_of_mem _ hq)) h1 h2 h3 hmem'
    · rw [if_neg hl]
      push_neg at hl
      by_cases hsm : p.summary ≠ []
      · rw [if_pos hsm]
        intro hmem
        rcases List.mem_cons.mp hmem with heq | hmem'
        · exact hr p (List.mem_cons_self _ _) (by rw [← heq]; rfl)
        · exact summarizeAux_no_sentinel L rest gp summ
            (fun q hq => hr q (List.mem_cons_of_mem _ hq)) h1 h2 h3 hmem'
      · rw [if_neg hsm]
        have hpne : p.pfx ≠ [] := by
          intro h0
          have hL0 : L = 0 := by rw [← hl, h0]; rfl
          apply hr p (List.mem_cons_self _ _)
          rw [h0, hL0]
          rfl
        obtain ⟨l, a, hpl⟩ := List.eq_nil_or_concat p.pfx |>.resolve_left hpne
        rw [List.concat_eq_append] at hpl
        have hdl : p.pfx.dropLast = l := by rw [hpl, List.dropLast_concat]
        have hgl : p.pfx.getLastD '?' = a := by rw [hpl, List.getLastD_concat]
        by_cases hd : p.pfx.dropLast ≠ gp
        · rw [if_pos hd]
          intro hmem
          rcases List.mem_cons.mp hmem with heq | hmem'
          · exact flushPattern_ne_sentinel L gp summ h1 h2 h3 heq.symm
          · refine summarizeAux_no_sentinel L rest _ _
              (fun q hq => hr q (List.mem_cons_of_mem _ hq)) (by simp) ?_ ?_ hmem'
            · rw [hdl, hgl]
              show (l ++ [a]).length = L
              rw [← hpl]
              exact hl
            · rw [hdl, hgl]
              show l ++ [a] ≠ _
              rw [← hpl]
              exact hr p (List.mem_cons_self _ _)
        · rw [if_neg hd]
          refine summarizeAux_no_sentinel L rest gp _
            (fun q hq => hr q (List.mem_cons_of_mem _ hq)) (by simp) ?_ ?_
          · rwa [headD_append_left h1]
          · rwa [headD_append_left h1]

theorem summarizeAux_none_no_sentinel (L : Nat) :
    ∀ (rest : List Pattern), (∀ p ∈ rest, p.pfx ≠ List.replicate L 'x') →
      sentinel L ∉ summarizeAux L none [] (rest ++ [sentinel L])
  | [], hr => by
    rw [List.nil_append, summarizeAux]
    rw [if_neg (by simp [sentinel_pfx]), if_neg (by simp [sentinel_summary])]
    rw [summarizeAux]
    exact List.not_mem_nil _
  | p :: rest, hr => by
    rw [List.cons_append, summarizeAux]
    by_cases hl : p.pfx.length ≠ L
    · rw [if_pos hl]
      intro hmem
      rcases List.mem_cons.mp hmem with heq | hmem'
      · exact hr p (List.mem_cons_self _ _) (by rw [← heq]; rfl)
      · exact summarizeAux_none_no_sentinel L rest
          (fun q hq => hr q (List.mem_cons_of_mem _ hq)) hmem'
    · rw [if_neg hl]
      push_neg at hl
      by_cases hsm : p.summary ≠ []
      · rw [if_pos hsm]
        intro hmem
        rcases List.mem_cons.mp hmem with heq | hmem'
        · exact hr p (List.mem_cons_self _ _) (by rw [← heq]; rfl)
        · exact summarizeAux_none_no_sentinel L rest
            (fun q hq => hr q (List.mem_cons_of_mem _ hq)) hmem'
      · rw [if_neg hsm]
        have hpne : p.pfx ≠ [] := by
          intro h0
          have hL0 : L = 0 := by rw [← hl, h0]; rfl
          apply hr p (List.mem_cons_self _ _)
          rw [h0, hL0]
          rfl
        obtain ⟨l, a, hpl⟩ := List.eq_nil_or_concat p.pfx |>.resolve_left hpne
        rw [List.concat_eq_append] at hpl
        have hdl : p.pfx.dropLast = l := by rw [hpl, List.dropLast_concat]
        have hgl : p.pfx.getLastD '?' = a := by rw [hpl, List.getLastD_concat]
        refine summarizeAux_no_sentinel L rest _ _
          (fun q hq => hr q (List.mem_cons_of_mem _ hq)) (by simp) ?_ ?_
        · rw [hdl, hgl]
          show (l ++ [a]).length = L
          rw [← hpl]
          exact hl
        · rw [hdl, hgl]
          show l ++ [a] ≠ _
          rw [← hpl]
          exact hr p (List.mem_cons_self _ _)

/-- C10: when no input pattern carries the terminator's synthetic prefix
('x' repeated pattern_len times — the "guaranteed distinct prefix"
premise), the terminator appended by the Summarizer is never itself among
the Summarizer's output patterns. -/
theorem c10_sentinel (i : List Pattern) (L : Nat)
    (h : ∀ p ∈ i, p.pfx ≠ List.replicate L 'x') :
    sentinel L ∉ Pattern.summarize i L :=
  summarizeAux_none_no_sentinel L i h

/-- C10 witness: the terminator of length 5 is not among the output of the
summarization pass over the ten patterns "55510" … "55519". -/
theorem c10_witness : sentinel 5 ∉ Pattern.summarize exTen 5 :=
  c10_sentinel exTen 5 (by decide)

/-! ### Soundness of one summarization pass (C1) -/

/-- The pattern flushed for a collected group covers exactly the numbers
covered by the group's members. -/
theorem flushPattern_matches (gp summ : List Char) (hlen : gp.length ≤ 9)
    (hne : summ ≠ []) (hsort : List.Pairwise (· < ·) summ)
    (hd : ∀ c ∈ summ, DigitC c) (n : List Char) (hn : telNum n) :
    pmatches (flushPattern gp summ) n ↔
      ∃ c ∈ summ, n.take (gp.length + 1) = gp ++ [c] := by
  rw [flushPattern_eq]
  split
  · rename_i h1
    obtain ⟨c, rfl⟩ : ∃ c, summ = [c] := by
      cases summ with
      | nil => cases hne rfl
      | cons c t =>
        cases t with
        | nil => exact ⟨c, rfl⟩
        | cons d u => simp at h1
    rw [pmatches_simple]
    simp only [List.length_append, List.length_singleton]
    constructor
    · intro h
      exact ⟨c, List.mem_singleton.mpr rfl, h⟩
    · rintro ⟨d, hd1, h⟩
      rw [List.mem_singleton] at hd1
      subst hd1
      exact h
  · split
    · rename_i h1 h10
      rw [pmatches_digitset _ _ _ _ hne]
    · rename_i h1 h10
      push_neg at h10
      rw [pmatches_simple]
      constructor
      · intro h
        obtain ⟨c, hc1, hc2⟩ := telNum_get n hn gp.length (by omega)
        refine ⟨c, digit_complete hsort hd h10 c hc2, ?_⟩
        rw [take_eq_append_singleton]
        exact ⟨h, hc1⟩
      · rintro ⟨c, hc, h⟩
        rw [take_eq_append_singleton] at h
        exact h.1

/-- Two simple patterns in one group, ordered by `plt`, have ordered
trailing digits. -/
theorem group_lt {p q : Pattern} {g : List Char} {a b : Char}
    (hlt : plt p q = true) (hps : p.start = []) (hqs : q.start = [])
    (hpm : p.summary = []) (hqm : q.summary = [])
    (hpx : p.pfx = g ++ [a]) (hqx : q.pfx = g ++ [b]) : a < b := by
  simp only [plt, Bool.or_eq_true, Bool.and_eq_true, beq_iff_eq] at hlt
  rcases hlt with h | ⟨e, h⟩
  · rw [hpx, hqx, lexLt_append_last] at h
    exact h
  · exfalso
    rcases h with h | ⟨f, h⟩
    · rw [hps, hqs, lexLt_irrefl] at h
      cases h
    · rw [hpm, hqm, lexLt_irrefl] at h
      cases h

/-- Invariant-carrying soundness of the scan loop with an open group: the
numbers covered by the output are exactly those covered by the open group's
members plus those covered by the remaining input. -/
theorem summarizeAux_sound (L : Nat) (hL3 : 3 ≤ L) (hL10 : L ≤ 10) :
    ∀ (rest : List Pattern) (gp summ : List Char),
      gp.length = L - 1 → (∀ c ∈ gp, DigitC c) →
      summ ≠ [] → List.Pairwise (· < ·) summ → (∀ c ∈ summ, DigitC c) →
      (∀ p ∈ rest, p.start = [] ∧ p.stop = []) →
      (∀ p ∈ rest, ∀ c ∈ p.pfx, DigitC c) →
      List.Pairwise (fun a b => plt a b = true) rest →
      (∀ p ∈ rest, p.pfx.length = L → p.summary = [] → p.pfx.dropLast = gp →
        ∀ c ∈ summ, c < p.pfx.getLastD '?') →
      ∀ n, telNum n →
      ((∃ q ∈ summarizeAux L (some gp) summ (rest ++ [sentinel L]), pmatches q n) ↔
        ((∃ c ∈ summ, n.take (gp.length + 1) = gp ++ [c]) ∨
          ∃ q ∈ rest, pmatches q n))
  | [], gp, summ, hgl, hgd, hs1, hs2, hs3, _, _, _, _, n, hn => by
    rw [List.nil_append, summarizeAux]
    rw [if_neg (by simp [sentinel_pfx]), if_neg (by simp [sentinel_summary])]
    have hgx : (sentinel L).pfx.dropLast ≠ gp := by
      rw [sentinel_pfx, dropLast_replicate_char]
      intro h0
      have h1 : 'x' ∈ gp := by
        rw [← h0]
        exact List.mem_replicate.mpr ⟨by omega, rfl⟩
      exact absurd (hgd 'x' h1) (by decide)
    rw [if_pos hgx, summarizeAux]
    rw [List.exists_mem_cons_iff]
    rw [flushPattern_matches gp summ (by omega) hs1 hs2 hs3 n hn]
  | p :: rest, gp, summ, hgl, hgd, hs1, hs2, hs3, hsimple, hdig, hsort, hlast, n, hn => by
    rw [List.cons_append, summarizeAux]
    have hsimple' := fun q hq => hsimple q (List.mem_cons_of_mem _ hq)
    have hdig' := fun q hq => hdig q (List.mem_cons_of_mem _ hq)
    have hsort' := hsort.of_cons
    by_cases hl : p.pfx.length ≠ L
    · rw [if_pos hl]
      rw [List.exists_mem_cons_iff, List.exists_mem_cons_iff,
        summarizeAux_sound L hL3 hL10 rest gp summ hgl hgd hs1 hs2 hs3 hsimple' hdig'
          hsort' (fun q hq => hlast q (List.mem_cons_of_mem _ hq)) n hn]
      exact or_left_comm
    · rw [if_neg hl]
      push_neg at hl
      by_cases hsm' : p.summary ≠ []
      · rw [if_pos hsm']
        rw [List.exists_mem_cons_iff, List.exists_mem_cons_iff,
          summarizeAux_sound L hL3 hL10 rest gp summ hgl hgd hs1 hs2 hs3 hsimple' hdig'
            hsort' (fun q hq => hlast q (List.mem_cons_of_mem _ hq)) n hn]
        exact or_left_comm
      · rw [if_neg hsm']
        push_neg at hsm'
        have hpne : p.pfx ≠ [] := by
          intro h0
          rw [h0] at hl
          simp at hl
          omega
        obtain ⟨l, a, hpl2⟩ := List.eq_nil_or_concat p.pfx |>.resolve_left hpne
        rw [List.concat_eq_append] at hpl2
        have hdl : p.pfx.dropLast = l := by rw [hpl2, List.dropLast_concat]
        have hga : p.pfx.getLastD '?' = a := by rw [hpl2, List.getLastD_concat]
        have hplen : l.length + 1 = L := by
          rw [← hl, hpl2]
          simp
        have hadig : DigitC a :=
          hdig p (List.mem_cons_self _ _) a (by rw [hpl2]; simp)
        have hldig : ∀ c ∈ l, DigitC c := fun c hc =>
          hdig p (List.mem_cons_self _ _) c
            (by rw [hpl2]; exact List.mem_append_left _ hc)
        have hpm : pmatches p n ↔ n.take (l.length + 1) = l ++ [a] := by
          unfold pmatches
          rw [if_pos hsm', hpl2]
          rw [show (l ++ [a]).length = l.length + 1 from by simp]
        have hnext : ∀ q ∈ rest, q.pfx.length = L → q.summary = [] →
            ∀ g2, q.pfx.dropLast = g2 → l = g2 → a < q.pfx.getLastD '?' := by
          intro q hq hql hqm g2 hqd hlg
          have hqne : q.pfx ≠ [] := by
            intro h0
            rw [h0] at hql
            simp at hql
            omega
          obtain ⟨l2, b, hql2⟩ := List.eq_nil_or_concat q.pfx |>.resolve_left hqne
          rw [List.concat_eq_append] at hql2
          have hb : q.pfx.getLastD '?' = b := by rw [hql2, List.getLastD_concat]
          have hl2 : l2 = l := by
            have h5 : q.pfx.dropLast = l2 := by rw [hql2, List.dropLast_concat]
            rw [hqd] at h5
            rw [← h5]
            exact hlg.symm
          rw [hb]
          exact group_lt ((List.pairwise_cons.mp hsort).1 q hq)
            (hsimple p (List.mem_cons_self _ _)).1
            (hsimple q (List.mem_cons_of_mem _ hq)).1
            hsm' hqm hpl2 (by rw [hql2, hl2])
        by_cases hd : p.pfx.dropLast ≠ gp
        · rw [if_pos hd, hdl, hga]
          rw [List.exists_mem_cons_iff]
          rw [flushPattern_matches gp summ (by omega) hs1 hs2 hs3 n hn]
          have hIH := summarizeAux_sound L hL3 hL10 rest l [a] (by omega) hldig
            (by simp) (List.pairwise_singleton _ _) (by simpa using hadig)
            hsimple' hdig' hsort' ?hlast2 n hn
          case hlast2 =>
            intro q hq hql hqm hqd c hc
            rw [List.mem_singleton] at hc
            subst hc
            exact hnext q hq hql hqm l hqd rfl
          rw [hIH]
          rw [show (∃ c ∈ [a], n.take (l.length + 1) = l ++ [c]) ↔
              n.take (l.length + 1) = l ++ [a] from by simp]
          rw [List.exists_mem_cons_iff (fun q => pmatches q n) p rest]
          rw [hpm]
        · rw [if_neg hd]
          push_neg at hd
          rw [hga]
          have hlgp : l = gp := by rw [← hdl, hd]
          have hIH := summarizeAux_sound L hL3 hL10 rest gp (summ ++ [a]) hgl hgd
            (by simp) ?sorted2 ?digits2 hsimple' hdig' hsort' ?hlast3 n hn
          case sorted2 =>
            rw [List.pairwise_append]
            refine ⟨hs2, List.pairwise_singleton _ _, ?_⟩
            intro c hc b hb
            rw [List.mem_singleton] at hb
            subst hb
            rw [← hga]
            exact hlast p (List.mem_cons_self _ _) hl hsm' hd c hc
          case digits2 =>
            intro c hc
            rcases List.mem_append.mp hc with h | h
            · exact hs3 c h
            · rw [List.mem_singleton] at h
              subst h
              exact hadig
          case hlast3 =>
            intro q hq hql hqm hqd c hc
            rcases List.mem_append.mp hc with h | h
            · exact hlast q (List.mem_cons_of_mem _ hq) hql hqm hqd c h
            · rw [List.mem_singleton] at h
              subst h
              exact hnext q hq hql hqm gp hqd hlgp
          rw [hIH]
          rw [hlgp] at hpm
          rw [List.exists_mem_cons_iff, hpm]
          have hsplit : (∃ c ∈ summ ++ [a], n.take (gp.length + 1) = gp ++ [c]) ↔
              ((∃ c ∈ summ, n.take (gp.length + 1) = gp ++ [c]) ∨
                n.take (gp.length + 1) = gp ++ [a]) := by
            constructor
            · rintro ⟨c, hc, hcc⟩
              rcases List.mem_append.mp hc with h | h
              · exact Or.inl ⟨c, h, hcc⟩
              · rw [List.mem_singleton] at h
                subst h
                exact Or.inr hcc
            · rintro (⟨c, hc, hcc⟩ | hcc)
              · exact ⟨c, List.mem_append_left _ hc, hcc⟩
              · exact ⟨a, List.mem_append_right _ (List.mem_singleton.mpr rfl), hcc⟩
          rw [hsplit]
          exact or_assoc

/-- Soundness of the scan loop before any group is open. -/
theorem summarizeAux_none_sound (L : Nat) (hL3 : 3 ≤ L) (hL10 : L ≤ 10) :
    ∀ (rest : List Pattern),
      (∀ p ∈ rest, p.start = [] ∧ p.stop = []) →
      (∀ p ∈ rest, ∀ c ∈ p.pfx, DigitC c) →
      List.Pairwise (fun a b => plt a b = true) rest →
      ∀ n, telNum n →
      ((∃ q ∈ summarizeAux L none [] (rest ++ [sentinel L]), pmatches q n) ↔
        ∃ q ∈ rest, pmatches q n)
  | [], _, _, _, n, hn => by
    rw [List.nil_append, summarizeAux]
    rw [if_neg (by simp [sentinel_pfx]), if_neg (by simp [sentinel_summary])]
    rw [summarizeAux]
  | p :: rest, hsimple, hdig, hsort, n, hn => by
    rw [List.cons_append, summarizeAux]
    have hsimple' := fun q hq => hsimple q (List.mem_cons_of_mem _ hq)
    have hdig' := fun q hq => hdig q (List.mem_cons_of_mem _ hq)
    have hsort' := hsort.of_cons
    by_cases hl : p.pfx.length ≠ L
    · rw [if_pos hl]
      rw [List.exists_mem_cons_iff, List.exists_mem_cons_iff,
        summarizeAux_none_sound L hL3 hL10 rest hsimple' hdig' hsort' n hn]
    · rw [if_neg hl]
      push_neg at hl
      by_cases hsm' : p.summary ≠ []
      · rw [if_pos hsm']
        rw [List.exists_mem_cons_iff, List.exists_mem_cons_iff,
          summarizeAux_none_sound L hL3 hL10 rest hsimple' hdig' hsort' n hn]
      · rw [if_neg hsm']
        push_neg at hsm'
        have hpne : p.pfx ≠ [] := by
          intro h0
          rw [h0] at hl
          simp at hl
          omega
        obtain ⟨l, a, hpl2⟩ := List.eq_nil_or_concat p.pfx |>.resolve_left hpne
        rw [List.concat_eq_append] at hpl2
        have hdl : p.pfx.dropLast = l := by rw [hpl2, List.dropLast_concat]
        have hga : p.pfx.getLastD '?' = a := by rw [hpl2, List.getLastD_concat]
        have hplen : l.length + 1 = L := by
          rw [← hl, hpl2]
          simp
        have hadig : DigitC a :=
          hdig p (List.mem_cons_self _ _) a (by rw [hpl2]; simp)
        have hldig : ∀ c ∈ l, DigitC c := fun c hc =>
          hdig p (List.mem_cons_self _ _) c
            (by rw [hpl2]; exact List.mem_append_left _ hc)
        have hpm : pmatches p n ↔ n.take (l.length + 1) = l ++ [a] := by
          unfold pmatches
          rw [if_pos hsm', hpl2]
          rw [show (l ++ [a]).length = l.length + 1 from by simp]
        rw [hdl, hga]
        have hIH := summarizeAux_sound L hL3 hL10 rest l [a] (by omega) hldig
          (by simp) (List.pairwise_singleton _ _) (by simpa using hadig)
          hsimple' hdig' hsort' ?hlastn n hn
        case hlastn =>
          intro q hq hql hqm hqd c hc
          rw [List.mem_singleton] at hc
          subst hc
          have hqne : q.pfx ≠ [] := by
            intro h0
            rw [h0] at hql
            simp at hql
            omega
          obtain ⟨l2, b, hql2⟩ := List.eq_nil_or_concat q.pfx |>.resolve_left hqne
          rw [List.concat_eq_append] at hql2
          have hb : q.pfx.getLastD '?' = b := by rw [hql2, List.getLastD_concat]
          have hl2 : l2 = l := by
            have h5 : q.pfx.dropLast = l2 := by rw [hql2, List.dropLast_concat]
            rw [hqd] at h5
            exact h5.symm
          rw [hb]
          exact group_lt ((List.pairwise_cons.mp hsort).1 q hq)
            (hsimple p (List.mem_cons_self _ _)).1
            (hsimple q (List.mem_cons_of_mem _ hq)).1
            hsm' hqm hpl2 (by rw [hql2, hl2])
        rw [hIH]
        rw [show (∃ c ∈ [a], n.take (l.length + 1) = l ++ [c]) ↔
            n.take (l.length + 1) = l ++ [a] from by simp]
        rw [List.exists_mem_cons_iff (fun q => pmatches q n) p rest]
        rw [hpm]

/-- C1: summarization soundness: for a sorted input of simple/digit-set
telephone patterns (empty start and end, digit prefixes) and any prefix
length L between 3 and 10, one Summarizer pass covers exactly the same
telephone numbers as its input — no number gained, none lost. -/
theorem c1_summarize_sound (i : List Pattern) (L : Nat)
    (hL3 : 3 ≤ L) (hL10 : L ≤ 10)
    (hsimple : ∀ p ∈ i, p.start = [] ∧ p.stop = [])
    (hdig : ∀ p ∈ i, ∀ c ∈ p.pfx, DigitC c)
    (hsort : List.Pairwise (fun a b => plt a b = true) i) :
    ∀ n, telNum n →
      ((∃ q ∈ Pattern.summarize i L, pmatches q n) ↔ ∃ q ∈ i, pmatches q n) :=
  fun n hn => summarizeAux_none_sound L hL3 hL10 i hsimple hdig hsort n hn

/-- C1 witness: the pass over the ten patterns "55510" … "55519" at length
5 covers the number 5551234567 exactly when the input does. -/
theorem c1_witness :
    (∃ q ∈ Pattern.summarize exTen 5,
        pmatches q ['5','5','5','1','2','3','4','5','6','7']) ↔
      ∃ q ∈ exTen, pmatches q ['5','5','5','1','2','3','4','5','6','7'] :=
  c1_summarize_sound exTen 5 (by decide) (by decide) (by decide) (by decide)
    (by decide) ['5','5','5','1','2','3','4','5','6','7'] (by decide)
